import Mathlib

/-!
Shallow embedding of `histogram/histogram_axis.py` (class `HistogramAxis`).

An axis is represented by its list of bin edges, with real numbers modelled
as rationals (`ℚ`).  Python exceptions are modelled by an error type and
fallible operations return `Except PyError _`.  numpy operations that the
code uses are translated explicitly:

* `np.searchsorted(edges, x, side='right')` on a sorted array is the number
  of elements `≤ x` (`searchsortedRight`);
* slicing `a[lo:hi+1]` is `(a.drop lo).take (hi + 1 - lo)`;
* strided slicing `a[::n]` is `npSliceStep a n`;
* in-place element assignment through a slice view (`newedges[0] = low`
  writes into the *original* array) is modelled by `List.set` on the full
  receiver array followed by re-slicing, which is observationally the same
  whenever the indices are in range (they are, in every case studied here);
* `np.allclose` with its default tolerances `rtol=1e-5`, `atol=1e-8`,
  including the `ValueError` it raises on non-broadcastable shapes, is
  `npAllclose`;
* `np.linspace(lo, hi, n+1)` is `linspace lo hi n` (numpy guarantees exact
  endpoints; over `ℚ` the formula gives them exactly).
-/

/-- Python exception kinds raised by the code under study. -/
inductive PyError
  | typeError
  | valueError
  | assertionError
  deriving DecidableEq, Repr

instance {ε α : Type} [DecidableEq ε] [DecidableEq α] : DecidableEq (Except ε α) := fun x y =>
  match x, y with
  | Except.ok a, Except.ok b =>
      if h : a = b then Decidable.isTrue (by rw [h]) else Decidable.isFalse (by simp [h])
  | Except.error a, Except.error b =>
      if h : a = b then Decidable.isTrue (by rw [h]) else Decidable.isFalse (by simp [h])
  | Except.ok _, Except.error _ => Decidable.isFalse (by simp)
  | Except.error _, Except.ok _ => Decidable.isFalse (by simp)

/-- A numpy value passed to the `edges` setter: `np.asarray` of the input.
A Python scalar (e.g. an `int`) becomes a 0-dimensional array, a flat list
becomes a 1-dimensional array. -/
inductive NpValue
  | scalar (q : ℚ)
  | arr (xs : List ℚ)
  deriving DecidableEq, Repr

/-- The check `all(x < y for x, y in zip(e, e[1:]))` from the `edges`
setter: every adjacent pair is strictly increasing (vacuously true for
lists of length 0 or 1). -/
def pairsIncreasing : List ℚ → Bool
  | [] => true
  | [_] => true
  | x :: y :: t => decide (x < y) && pairsIncreasing (y :: t)

/-- The `edges` property setter.  `assert e.ndim == 1` raises
`AssertionError` on a scalar; a non strictly increasing 1-d array raises
`ValueError`; otherwise the edges are stored. -/
def setEdges : NpValue → Except PyError (List ℚ)
  | NpValue.scalar _ => Except.error PyError.assertionError
  | NpValue.arr xs =>
      if pairsIncreasing xs then Except.ok xs else Except.error PyError.valueError

/-- `np.linspace(lo, hi, n+1)`: `n+1` evenly spaced points from `lo` to
`hi` inclusive. -/
def linspace (lo hi : ℚ) (n : ℕ) : List ℚ :=
  (List.range (n + 1)).map fun i : ℕ => lo + (hi - lo) * (i : ℚ) / n

/-- The `bins` constructor argument: either an integer bin count or an
iterable of explicit edges. -/
inductive BinsArg
  | count (n : ℕ)
  | edges (xs : List ℚ)
  deriving DecidableEq, Repr

/-- `HistogramAxis.__init__(bins, limits)` (labels ignored; they never
affect the edge data).  With `limits` given, `bins` must be an integer
(`TypeError` otherwise), the range must be increasing (`ValueError`
otherwise), and the edges are a uniform `linspace`.  Without `limits`, the
`bins` argument goes to the `edges` setter as-is: an integer is a
0-dimensional `np.asarray` and fails the setter's dimension assertion. -/
def initAxis (bins : BinsArg) (limits : Option (ℚ × ℚ)) : Except PyError (List ℚ) :=
  match limits with
  | some (lo, hi) =>
      match bins with
      | BinsArg.edges _ => Except.error PyError.typeError
      | BinsArg.count n =>
          if lo < hi then setEdges (NpValue.arr (linspace lo hi n))
          else Except.error PyError.valueError
  | none =>
      match bins with
      | BinsArg.count n => setEdges (NpValue.scalar n)
      | BinsArg.edges xs => setEdges (NpValue.arr xs)

/-- `np.searchsorted(e, x, side='right')` for a sorted array `e`: the
number of elements `≤ x` (the insertion point to the right of any run of
elements equal to `x`). -/
def searchsortedRight (e : List ℚ) (x : ℚ) : ℕ :=
  match e with
  | [] => 0
  | a :: t => (if a ≤ x then 1 else 0) + searchsortedRight t x

/-- `HistogramAxis.bin(x) = np.searchsorted(self.edges, x, side='right') - 1`. -/
def bin (e : List ℚ) (x : ℚ) : ℤ :=
  (searchsortedRight e x : ℤ) - 1

/-- `lowbin = max(bin, minbin)` with `minbin = 0`, from `edge_index`. -/
def lowbinOf (e : List ℚ) (x : ℚ) : ℕ :=
  (max (bin e x) 0).toNat

/-- `highbin = min(bin + 1, maxbin)` with `maxbin = len(edges) - 1`, from
`edge_index`. -/
def highbinOf (e : List ℚ) (x : ℚ) : ℕ :=
  (min (bin e x + 1) ((e.length : ℤ) - 1)).toNat

/-- The snap modes `edge_index` is actually called with from `cut`
(`'both'` is never produced by `cut`'s translation table and no claim
involves it). -/
inductive SnapE
  | nearest
  | low
  | high
  deriving DecidableEq, Repr

/-- `HistogramAxis.edge_index(x, snap)` for the single-index snap modes:
`low` and `high` return the clamped bounding-edge indices; `nearest`
compares `dlow = abs(x - low)` against `dhigh = abs(high - x)` with a
strict `<`. -/
def edge_index (e : List ℚ) (x : ℚ) : SnapE → ℕ
  | SnapE.nearest =>
      let lo := e.getD (lowbinOf e x) 0
      let hi := e.getD (highbinOf e x) 0
      if |x - lo| < |hi - x| then lowbinOf e x else highbinOf e x
  | SnapE.low => lowbinOf e x
  | SnapE.high => highbinOf e x

/-- The snap keywords accepted by `cut`. -/
inductive SnapC
  | nearest
  | expand
  | low
  | high
  | clip
  deriving DecidableEq, Repr

/-- Snap translation for the low side of `cut`: `clip` and `expand`
resolve with `'low'`, the rest pass through. -/
def cutSnapLow : SnapC → SnapE
  | SnapC.clip => SnapE.low
  | SnapC.expand => SnapE.low
  | SnapC.nearest => SnapE.nearest
  | SnapC.low => SnapE.low
  | SnapC.high => SnapE.high

/-- Snap translation for the high side of `cut`: `clip` and `expand`
resolve with `'high'`, the rest pass through. -/
def cutSnapHigh : SnapC → SnapE
  | SnapC.clip => SnapE.high
  | SnapC.expand => SnapE.high
  | SnapC.nearest => SnapE.nearest
  | SnapC.low => SnapE.low
  | SnapC.high => SnapE.high

/-- `HistogramAxis.cut(low, high, snap)` with per-side snaps.  Returns the
receiver's edge array *after* the call (first component: `newedges` is a
numpy view into `self.edges`, so the `clip` assignments
`newedges[0] = low` / `newedges[-1] = high` write into the receiver) and
the result of building the new axis together with the boolean mask over
the original bins (second component). -/
def cut (e : List ℚ) (lo hi : Option ℚ) (sl sh : SnapC) :
    List ℚ × Except PyError (List ℚ × List Bool) :=
  let lowi : ℕ := match lo with
    | none => 0
    | some lv => edge_index e lv (cutSnapLow sl)
  let highi : ℕ := match hi with
    | none => e.length - 1
    | some hv => edge_index e hv (cutSnapHigh sh)
  let mask : List Bool := (List.range (e.length - 1)).map fun i =>
    decide (lowi ≤ i ∧ i < highi)
  let e1 : List ℚ := match lo, sl with
    | some lv, SnapC.clip => e.set lowi lv
    | _, _ => e
  let e2 : List ℚ := match hi, sh with
    | some hv, SnapC.clip => e1.set highi hv
    | _, _ => e1
  let newedges : List ℚ := (e2.drop lowi).take (highi + 1 - lowi)
  (e2, (setEdges (NpValue.arr newedges)).map fun ne => (ne, mask))

/-- Strided slice `a[::n]` of numpy (for step `n ≥ 1`): every `n`-th
element starting at index 0; there are `⌈len/n⌉` of them. -/
def npSliceStep (l : List ℚ) (n : ℕ) : List ℚ :=
  (List.range ((l.length + n - 1) / n)).map fun k => l.getD (k * n) 0

/-- Snap keywords accepted by `mergebins`. -/
inductive SnapM
  | low
  | high
  deriving DecidableEq, Repr

/-- `HistogramAxis.mergebins(nbins, snap, clip)`: with `d, m =
divmod(self.nbins, n)`, the new edges are `edges[::n]` when `m == 0`;
otherwise `clip` keeps only full groups snapped to the chosen end and
`not clip` appends the true extreme edge.  The result goes through the
`HistogramAxis` constructor, hence the `edges` setter validation. -/
def mergebins (e : List ℚ) (n : ℕ) (snap : SnapM) (clip : Bool) :
    Except PyError (List ℚ) :=
  let m := (e.length - 1) % n
  let newedges : List ℚ :=
    if m = 0 then npSliceStep e n
    else if clip then
      match snap with
      | SnapM.low => npSliceStep e n
      | SnapM.high => npSliceStep (e.drop m) n
    else
      match snap with
      | SnapM.low => npSliceStep e n ++ [e.getD (e.length - 1) 0]
      | SnapM.high => e.getD 0 0 :: npSliceStep (e.drop m) n
  setEdges (NpValue.arr newedges)

/-- `np.isclose(x, y)` with default tolerances:
`|x - y| ≤ atol + rtol * |y|` with `rtol = 1e-5`, `atol = 1e-8`. -/
def npIsclose (x y : ℚ) : Bool :=
  decide (|x - y| ≤ 1 / 100000000 + |y| / 100000)

/-- `np.allclose(a, b)` on 1-d arrays, with numpy broadcasting: equal
lengths compare elementwise, a length-1 operand broadcasts against the
other, and any other length mismatch raises `ValueError`. -/
def npAllclose (a b : List ℚ) : Except PyError Bool :=
  if a.length = b.length then
    Except.ok ((a.zip b).all fun p => npIsclose p.1 p.2)
  else if a.length = 1 then
    Except.ok (b.all fun y => npIsclose (a.getD 0 0) y)
  else if b.length = 1 then
    Except.ok (a.all fun x => npIsclose x (b.getD 0 0))
  else
    Except.error PyError.valueError

/-- `HistogramAxis.__eq__`: `np.allclose` on the two edge arrays, with
`except ValueError: return False`. -/
def axisEq (a b : List ℚ) : Except PyError Bool :=
  match npAllclose a b with
  | Except.ok r => Except.ok r
  | Except.error PyError.valueError => Except.ok false
  | Except.error err => Except.error err

/-! ### Helper lemmas about the embedded operations -/

theorem pairsIncreasing_iff : ∀ e : List ℚ, pairsIncreasing e = true ↔ List.Chain' (· < ·) e
  | [] => by simp [pairsIncreasing]
  | [a] => by simp [pairsIncreasing]
  | a :: b :: t => by
    rw [List.chain'_cons, ← pairsIncreasing_iff (b :: t)]
    simp [pairsIncreasing]

theorem pairsIncreasing_pairwise {e : List ℚ} (h : pairsIncreasing e = true) :
    List.Pairwise (· < ·) e :=
  List.chain'_iff_pairwise.mp ((pairsIncreasing_iff e).mp h)

theorem pairwise_getElem {e : List ℚ} (hp : List.Pairwise (· < ·) e) {i j : ℕ}
    (hij : i < j) (hj : j < e.length) : e[i] < e[j] :=
  List.pairwise_iff_get.mp hp ⟨i, by omega⟩ ⟨j, hj⟩ hij

theorem pairwise_getElem_le {e : List ℚ} (hp : List.Pairwise (· < ·) e) {i j : ℕ}
    (hij : i ≤ j) (hj : j < e.length) : e[i] ≤ e[j] := by
  rcases lt_or_eq_of_le hij with h | h
  · exact le_of_lt (pairwise_getElem hp h hj)
  · subst h; exact le_refl _

theorem mem_take_getElem {e : List ℚ} {k : ℕ} {a : ℚ} (h : a ∈ e.take k) :
    ∃ j, ∃ hj : j < e.length, j < k ∧ e[j] = a := by
  obtain ⟨⟨j, hj⟩, hg⟩ := List.mem_iff_get.mp h
  have hj' := hj
  rw [List.length_take] at hj'
  refine ⟨j, by omega, by omega, ?_⟩
  rw [List.get_eq_getElem] at hg
  rw [← hg, List.getElem_take]

theorem mem_drop_getElem {e : List ℚ} {k : ℕ} {a : ℚ} (h : a ∈ e.drop k) :
    ∃ j, ∃ hj : j < e.length, k ≤ j ∧ e[j] = a := by
  obtain ⟨⟨j, hj⟩, hg⟩ := List.mem_iff_get.mp h
  have hj' := hj
  rw [List.length_drop] at hj'
  refine ⟨k + j, by omega, by omega, ?_⟩
  rw [List.get_eq_getElem] at hg
  rw [← hg, List.getElem_drop]

theorem searchsortedRight_eq_countP (e : List ℚ) (x : ℚ) :
    searchsortedRight e x = e.countP fun a => decide (a ≤ x) := by
  induction e with
  | nil => simp [searchsortedRight]
  | cons a t ih =>
    by_cases h : a ≤ x <;>
      simp [searchsortedRight, List.countP_cons, ih, h, Nat.add_comm]

theorem le_searchsorted {e : List ℚ} (hp : List.Pairwise (· < ·) e) {x : ℚ} {i : ℕ}
    (hi : i < e.length) (hx : e[i] ≤ x) : i + 1 ≤ searchsortedRight e x := by
  rw [searchsortedRight_eq_countP]
  have hsplit := (List.countP_append (fun a => decide (a ≤ x)) (e.take (i + 1))
    (e.drop (i + 1))).symm
  rw [List.take_append_drop] at hsplit
  have h1 : (e.take (i + 1)).countP (fun a => decide (a ≤ x)) =
      (e.take (i + 1)).length := by
    refine List.countP_eq_length.mpr ?_
    intro a ha
    obtain ⟨j, hj, hjk, hja⟩ := mem_take_getElem ha
    have : e[j] ≤ e[i] := pairwise_getElem_le hp (by omega) hi
    simp only [decide_eq_true_eq]
    rw [← hja] at *
    exact le_trans this hx
  have hlen : (e.take (i + 1)).length = i + 1 := by
    rw [List.length_take]; omega
  omega

theorem searchsorted_le {e : List ℚ} (hp : List.Pairwise (· < ·) e) {x : ℚ} {k : ℕ}
    (hk : k < e.length) (hx : x < e[k]) : searchsortedRight e x ≤ k := by
  rw [searchsortedRight_eq_countP]
  have hsplit := (List.countP_append (fun a => decide (a ≤ x)) (e.take k)
    (e.drop k)).symm
  rw [List.take_append_drop] at hsplit
  have h0 : (e.drop k).countP (fun a => decide (a ≤ x)) = 0 := by
    rw [List.countP_eq_zero]
    intro a ha
    obtain ⟨j, hj, hjk, hja⟩ := mem_drop_getElem ha
    have : e[k] ≤ e[j] := pairwise_getElem_le hp hjk hj
    simp only [decide_eq_true_eq, not_le]
    rw [← hja] at *
    exact lt_of_lt_of_le hx this
  have h1 : (e.take k).countP (fun a => decide (a ≤ x)) ≤ (e.take k).length :=
    List.countP_le_length _
  have hlen : (e.take k).length ≤ k := by
    rw [List.length_take]; omega
  omega

theorem searchsorted_bracket {e : List ℚ} (hp : List.Pairwise (· < ·) e) {x : ℚ} {i : ℕ}
    (hi1 : i + 1 < e.length) (hlo : e[i] ≤ x) (hhi : x < e[i + 1]) :
    searchsortedRight e x = i + 1 :=
  le_antisymm (searchsorted_le hp hi1 hhi) (le_searchsorted hp (by omega) hlo)

theorem searchsorted_top {e : List ℚ} (hp : List.Pairwise (· < ·) e) {x : ℚ}
    (hne : 1 ≤ e.length) (hx : e[e.length - 1] ≤ x) :
    searchsortedRight e x = e.length := by
  rw [searchsortedRight_eq_countP]
  refine List.countP_eq_length.mpr ?_
  intro a ha
  obtain ⟨⟨j, hj⟩, hg⟩ := List.mem_iff_get.mp ha
  rw [List.get_eq_getElem] at hg
  have : e[j] ≤ e[e.length - 1] := pairwise_getElem_le hp (by omega) (by omega)
  simp only [decide_eq_true_eq]
  rw [← hg]
  exact le_trans this hx

/-! ### Claims -/

/-- Claim C1: for a `HistogramAxis` with strictly increasing edges,
`bin(x)` returns the unique index `i` with `edges[i] <= x < edges[i+1]`
whenever `edges[0] <= x < edges[-1]` (in particular `bin(edges[i]) = i`
for every `i < nbins`, low-inclusive); `bin(x)` is negative when
`x < edges[0]`; and `bin(x) = nbins` when `x >= edges[-1]`. -/
theorem C1_bin_correct (e : List ℚ) (x : ℚ)
    (hinc : pairsIncreasing e = true) (hlen : 2 ≤ e.length) :
    (∀ i : ℕ, i + 1 < e.length → e.getD i 0 ≤ x → x < e.getD (i + 1) 0 →
      bin e x = i) ∧
    (x < e.getD 0 0 → bin e x < 0) ∧
    (e.getD (e.length - 1) 0 ≤ x → bin e x = (e.length : ℤ) - 1) ∧
    (∀ i : ℕ, i + 1 < e.length → bin e (e.getD i 0) = i) := by
  have hp := pairsIncreasing_pairwise hinc
  have hbracket : ∀ (y : ℚ) (i : ℕ), i + 1 < e.length → e.getD i 0 ≤ y →
      y < e.getD (i + 1) 0 → bin e y = i := by
    intro y i hi hlo hhi
    rw [List.getD_eq_getElem e 0 (by omega)] at hlo
    rw [List.getD_eq_getElem e 0 hi] at hhi
    rw [bin, searchsorted_bracket hp hi hlo hhi]
    push_cast
    ring
  refine ⟨hbracket x, ?_, ?_, ?_⟩
  · intro hx
    rw [List.getD_eq_getElem e 0 (by omega)] at hx
    have := searchsorted_le hp (by omega) hx
    rw [bin]
    omega
  · intro hx
    rw [List.getD_eq_getElem e 0 (by omega)] at hx
    rw [bin, searchsorted_top hp (by omega) hx]
  · intro i hi
    refine hbracket (e.getD i 0) i hi (le_refl _) ?_
    rw [List.getD_eq_getElem e 0 (by omega), List.getD_eq_getElem e 0 hi]
    exact pairwise_getElem hp (by omega) hi

/-- Witness for C1 at the concrete axis `[0, 1, 2]` and `x = 1`. -/
theorem C1_bin_correct_witness : bin [0, 1, 2] 1 = 1 :=
  (C1_bin_correct [0, 1, 2] 1 (by decide) (by decide)).1 1 (by decide)
    (by decide) (by decide)

theorem searchsorted_le_length (e : List ℚ) (x : ℚ) :
    searchsortedRight e x ≤ e.length := by
  rw [searchsortedRight_eq_countP]
  exact List.countP_le_length _

theorem searchsorted_lt_getElem {e : List ℚ} (hp : List.Pairwise (· < ·) e) {x : ℚ}
    (h : searchsortedRight e x < e.length) : x < e[searchsortedRight e x] := by
  by_contra hc
  push_neg at hc
  have := le_searchsorted hp h hc
  omega

theorem getElem_le_searchsorted {e : List ℚ} (hp : List.Pairwise (· < ·) e) {x : ℚ}
    (h : 1 ≤ searchsortedRight e x) :
    e.get ⟨searchsortedRight e x - 1, by have := searchsorted_le_length e x; omega⟩ ≤ x := by
  by_contra hc
  push_neg at hc
  have := searchsorted_le hp (k := searchsortedRight e x - 1)
    (by have := searchsorted_le_length e x; omega) hc
  omega

theorem searchsorted_mono (e : List ℚ) {x y : ℚ} (hxy : x ≤ y) :
    searchsortedRight e x ≤ searchsortedRight e y := by
  induction e with
  | nil => simp [searchsortedRight]
  | cons a t ih =>
    simp only [searchsortedRight]
    have : (if a ≤ x then 1 else 0) ≤ (if a ≤ y then 1 else 0) := by
      split_ifs with h1 h2
      · omega
      · exact absurd (le_trans h1 hxy) h2
      · omega
      · omega
    omega

/-- Counterexample to claim C2 as stated: on the axis `[0, 2]` at `x = 1`
the two bounding edges are exactly equidistant (`dlow = dhigh = 1`), yet
`edge_index(x, 'nearest')` returns the high edge index `1`, not the low
edge index `0`. -/
theorem C2_nearest_tie_counterexample :
    |(1 : ℚ) - [0, 2].getD (lowbinOf [0, 2] 1) 0| =
      |([0, 2] : List ℚ).getD (highbinOf [0, 2] 1) 0 - 1| ∧
    edge_index [0, 2] 1 SnapE.nearest = 1 ∧
    lowbinOf [0, 2] 1 = 0 ∧ (1 : ℕ) ≠ 0 := by
  norm_num [edge_index, lowbinOf, highbinOf, bin, searchsortedRight]

/-- Claim C2 (amended): when the two bounding edges of `x` are exactly
equidistant from `x` (`dlow = dhigh`), `edge_index(x, 'nearest')` returns
the index of the high (upper) bounding edge, because the `dlow < dhigh`
comparison is strict. -/
theorem C2_nearest_tie_returns_high (e : List ℚ) (x : ℚ)
    (h : |x - e.getD (lowbinOf e x) 0| = |e.getD (highbinOf e x) 0 - x|) :
    edge_index e x SnapE.nearest = highbinOf e x := by
  simp only [edge_index, h, lt_irrefl, if_false]

/-- Witness for the amended C2 at the concrete axis `[0, 2]`, `x = 1`. -/
theorem C2_nearest_tie_returns_high_witness :
    edge_index [0, 2] 1 SnapE.nearest = highbinOf [0, 2] 1 :=
  C2_nearest_tie_returns_high [0, 2] 1
    (by norm_num [lowbinOf, highbinOf, bin, searchsortedRight])

/-- Claim C3 is violated by the code (`cut` is documented to return a new
axis, but with `snap='clip'` it assigns the requested bounds through a
numpy view of `self.edges`, mutating the receiver): on the axis
`[0, 2, 4, 6]`, `cut(1, 5, snap='clip')` leaves the receiver's edge array
equal to `[1, 2, 4, 5]`, which differs from the original `[0, 2, 4, 6]`. -/
theorem C3_cut_clip_mutates_receiver :
    (cut [0, 2, 4, 6] (some 1) (some 5) SnapC.clip SnapC.clip).1 = [1, 2, 4, 5] ∧
    ([1, 2, 4, 5] : List ℚ) ≠ [0, 2, 4, 6] := by
  constructor
  · norm_num [cut, edge_index, cutSnapLow, cutSnapHigh, lowbinOf, highbinOf, bin,
      searchsortedRight, Int.toNat_ofNat, List.set]
  · decide

theorem cut_some_clip (e : List ℚ) (lv hv : ℚ) :
    cut e (some lv) (some hv) SnapC.clip SnapC.clip =
      ((e.set (lowbinOf e lv) lv).set (highbinOf e hv) hv,
       (setEdges (NpValue.arr
          ((((e.set (lowbinOf e lv) lv).set (highbinOf e hv) hv).drop
              (lowbinOf e lv)).take (highbinOf e hv + 1 - lowbinOf e lv)))).map
         fun ne => (ne, (List.range (e.length - 1)).map fun i =>
           decide (lowbinOf e lv ≤ i ∧ i < highbinOf e hv))) := rfl

/-- Counterexample to claim C4 as stated: on the axis `[0, 2, 4, 6]` with
`low = 1` and `high = 4` (both strictly inside the range and `low < high`),
`cut(low, high, snap='clip')` does not return an axis at all: the high
side resolves to edge index 3 and the clip overwrite produces the edge
array `[1, 2, 4, 4]`, which fails the strictly-increasing validation with
a `ValueError`. -/
theorem C4_clip_counterexample :
    ((0 : ℚ) < 1 ∧ (1 : ℚ) < 4 ∧ (4 : ℚ) < 6) ∧
    (cut [0, 2, 4, 6] (some 1) (some 4) SnapC.clip SnapC.clip).2 =
      Except.error PyError.valueError := by
  constructor
  · norm_num
  · norm_num [cut, edge_index, cutSnapLow, cutSnapHigh, lowbinOf, highbinOf, bin,
      searchsortedRight, setEdges, pairsIncreasing, List.range_succ, Except.map,
      Int.toNat_ofNat, List.set]

theorem chain'_of_getD (l : List ℚ)
    (h : ∀ k, k + 1 < l.length → l.getD k 0 < l.getD (k + 1) 0) :
    List.Chain' (· < ·) l := by
  rw [List.chain'_iff_get]
  intro i hi
  have hh := h i (by omega)
  rw [List.getD_eq_getElem l 0 (by omega), List.getD_eq_getElem l 0 (by omega)] at hh
  simpa using hh

/-- Claim C4 (amended): for bounds `low < high` both strictly inside the
axis range, *provided `high` is not exactly one of the existing edges*,
`cut(low, high, snap='clip')` returns an axis whose first edge is exactly
`low` and whose last edge is exactly `high`; the returned edges are the
slice obtained by resolving the low side to its low bounding edge
(`edge_index(low, 'low')`) and the high side to its high bounding edge
(`edge_index(high, 'high')`) before the overwrite, the interior edges
being the original ones.  (When `high` equals an existing edge the clip
overwrite makes the last two edges equal and the construction of the new
axis raises `ValueError` instead, per the counterexample.) -/
theorem C4_clip_exact_bounds (e : List ℚ) (lo hi : ℚ)
    (hinc : pairsIncreasing e = true) (hlen : 2 ≤ e.length)
    (hlo0 : e.getD 0 0 < lo) (hlh : lo < hi)
    (hhiN : hi < e.getD (e.length - 1) 0) (hnot : hi ∉ e) :
    ∃ ne mask,
      (cut e (some lo) (some hi) SnapC.clip SnapC.clip).2 = Except.ok (ne, mask) ∧
      ne.getD 0 0 = lo ∧
      ne.getD (ne.length - 1) 0 = hi ∧
      ne.length = edge_index e hi SnapE.high + 1 - edge_index e lo SnapE.low ∧
      (∀ k, 0 < k → k + 1 < ne.length →
        ne.getD k 0 = e.getD (edge_index e lo SnapE.low + k) 0) := by
  have hp := pairsIncreasing_pairwise hinc
  set L := e.length with hL
  set sL := searchsortedRight e lo with hsLdef
  set sH := searchsortedRight e hi with hsHdef
  have hE0lo : e[0] ≤ lo := by
    have h := hlo0
    rw [List.getD_eq_getElem e 0 (by omega)] at h
    exact le_of_lt h
  have hlast : hi < e[L - 1] := by
    have h := hhiN
    rw [List.getD_eq_getElem e 0 (by omega)] at h
    exact h
  have hsL1 : 1 ≤ sL := le_searchsorted hp (i := 0) (by omega) hE0lo
  have hsH1 : 1 ≤ sH :=
    le_searchsorted hp (i := 0) (by omega) (le_of_lt (lt_of_le_of_lt hE0lo hlh))
  have hsLle : sL ≤ L - 1 :=
    searchsorted_le hp (k := L - 1) (by omega) (lt_trans hlh hlast)
  have hsHle : sH ≤ L - 1 := searchsorted_le hp (k := L - 1) (by omega) hlast
  have hmono : sL ≤ sH := searchsorted_mono e (le_of_lt hlh)
  have hlowbin : edge_index e lo SnapE.low = sL - 1 := by
    show lowbinOf e lo = sL - 1
    simp only [lowbinOf, bin, ← hsLdef]
    omega
  have hhighbin : edge_index e hi SnapE.high = sH := by
    show highbinOf e hi = sH
    simp only [highbinOf, bin, ← hsHdef, ← hL]
    omega
  have hlowbin' : lowbinOf e lo = sL - 1 := hlowbin
  have hhighbin' : highbinOf e hi = sH := hhighbin
  have hbrlo2 : lo < e.getD sL 0 := by
    rw [List.getD_eq_getElem e 0 (by omega)]
    exact searchsorted_lt_getElem hp (by omega)
  have hbrhi : e.getD (sH - 1) 0 < hi := by
    rw [List.getD_eq_getElem e 0 (by omega)]
    have h1 : e[sH - 1] ≤ hi := getElem_le_searchsorted hp hsH1
    have h2 : e[sH - 1] ≠ hi := fun hc => hnot (hc ▸ List.getElem_mem _)
    exact lt_of_le_of_ne h1 h2
  set e2 := (e.set (sL - 1) lo).set sH hi with he2def
  have he2len : e2.length = L := by
    rw [he2def, List.length_set, List.length_set]
  have he2getD : ∀ m, m < L → e2.getD m 0 =
      if sH = m then hi else if sL - 1 = m then lo else e.getD m 0 := by
    intro m hm
    rw [List.getD_eq_getElem e2 0 (by rw [he2len]; exact hm),
      List.getD_eq_getElem e 0 hm]
    simp only [he2def, List.getElem_set]
  set ne := (e2.drop (sL - 1)).take (sH + 1 - (sL - 1)) with hnedef
  have hnelen : ne.length = sH + 2 - sL := by
    rw [hnedef, List.length_take, List.length_drop, he2len]
    omega
  have hnegetD : ∀ k, k < sH + 2 - sL → ne.getD k 0 = e2.getD (sL - 1 + k) 0 := by
    intro k hk
    rw [List.getD_eq_getElem ne 0 (by rw [hnelen]; omega),
      List.getD_eq_getElem e2 0 (by rw [he2len]; omega)]
    simp only [hnedef, List.getElem_take, List.getElem_drop]
  have hstep : ∀ m, sL - 1 ≤ m → m < sH → e2.getD m 0 < e2.getD (m + 1) 0 := by
    intro m hm1 hm2
    rw [he2getD m (by omega), he2getD (m + 1) (by omega)]
    rcases eq_or_lt_of_le hm1 with heq | hgt
    · rw [if_neg (by omega), if_pos (by omega)]
      rcases Nat.lt_or_ge (m + 1) sH with hlt | hge
      · rw [if_neg (by omega), if_neg (by omega)]
        have hm1sL : m + 1 = sL := by omega
        rw [hm1sL]
        exact hbrlo2
      · rw [if_pos (by omega)]
        exact hlh
    · rw [if_neg (by omega), if_neg (by omega)]
      rcases Nat.lt_or_ge (m + 1) sH with hlt | hge
      · rw [if_neg (by omega), if_neg (by omega)]
        rw [List.getD_eq_getElem e 0 (by omega), List.getD_eq_getElem e 0 (by omega)]
        exact pairwise_getElem hp (by omega) (by omega)
      · rw [if_pos (by omega)]
        have hmsH : m = sH - 1 := by omega
        rw [hmsH]
        exact hbrhi
  have hchain : List.Chain' (· < ·) ne := by
    refine chain'_of_getD ne ?_
    intro k hk
    rw [hnelen] at hk
    rw [hnegetD k (by omega), hnegetD (k + 1) (by omega)]
    have harith : sL - 1 + (k + 1) = (sL - 1 + k) + 1 := by omega
    rw [harith]
    exact hstep (sL - 1 + k) (by omega) (by omega)
  have hok : setEdges (NpValue.arr ne) = Except.ok ne := by
    show (if pairsIncreasing ne then Except.ok ne
      else Except.error PyError.valueError) = Except.ok ne
    rw [if_pos ((pairsIncreasing_iff ne).mpr hchain)]
  refine ⟨ne, (List.range (e.length - 1)).map fun i => decide (sL - 1 ≤ i ∧ i < sH),
    ?_, ?_, ?_, ?_, ?_⟩
  · have key : (cut e (some lo) (some hi) SnapC.clip SnapC.clip).2 =
        (setEdges (NpValue.arr ne)).map (fun x => (x, (List.range (e.length - 1)).map
          fun i => decide (sL - 1 ≤ i ∧ i < sH))) := by
      rw [cut_some_clip]
      simp only [hlowbin', hhighbin', ← he2def, ← hnedef]
    rw [key, hok]
    rfl
  · rw [hnegetD 0 (by omega), Nat.add_zero, he2getD (sL - 1) (by omega),
      if_neg (by omega), if_pos rfl]
  · rw [hnelen]
    have h1 : sH + 2 - sL - 1 = sH + 1 - sL := by omega
    rw [h1, hnegetD (sH + 1 - sL) (by omega)]
    have h2 : sL - 1 + (sH + 1 - sL) = sH := by omega
    rw [h2, he2getD sH (by omega), if_pos rfl]
  · rw [hlowbin, hhighbin, hnelen]
    omega
  · intro k hk1 hk2
    rw [hnelen] at hk2
    rw [hlowbin, hnegetD k (by omega), he2getD (sL - 1 + k) (by omega),
      if_neg (by omega), if_neg (by omega)]

/-- Witness for the amended C4 at the axis `[0, 2, 4, 6]`, `low = 1`,
`high = 5`. -/
theorem C4_clip_exact_bounds_witness :
    ∃ ne mask,
      (cut [0, 2, 4, 6] (some 1) (some 5) SnapC.clip SnapC.clip).2 =
        Except.ok (ne, mask) ∧
      ne.getD 0 0 = 1 ∧
      ne.getD (ne.length - 1) 0 = 5 ∧
      ne.length = edge_index [0, 2, 4, 6] 5 SnapE.high + 1 -
        edge_index [0, 2, 4, 6] 1 SnapE.low ∧
      (∀ k, 0 < k → k + 1 < ne.length →
        ne.getD k 0 = ([0, 2, 4, 6] : List ℚ).getD
          (edge_index [0, 2, 4, 6] 1 SnapE.low + k) 0) :=
  C4_clip_exact_bounds [0, 2, 4, 6] 1 5 (by decide) (by decide) (by decide)
    (by decide) (by decide) (by decide)

theorem chain'_getD_iff (l : List ℚ) :
    List.Chain' (· < ·) l ↔ ∀ k, k + 1 < l.length → l.getD k 0 < l.getD (k + 1) 0 := by
  constructor
  · intro h k hk
    rw [List.chain'_iff_get] at h
    have hh := h k (by omega)
    rw [List.getD_eq_getElem l 0 (by omega), List.getD_eq_getElem l 0 (by omega)]
    simpa using hh
  · exact chain'_of_getD l

theorem getD_map_range (f : ℕ → ℚ) (t k : ℕ) (hk : k < t) :
    ((List.range t).map f).getD k 0 = f k := by
  rw [List.getD_eq_getElem _ 0 (by simp [hk])]
  simp

/-- Claim C5: `cut(None, None)` is the identity: the new axis has the same
edges as the receiver, the mask is true on every original bin, and the
receiver is untouched (for every snap keyword, since the clip overwrites
require an explicit bound). -/
theorem C5_cut_none_identity (e : List ℚ) (hinc : pairsIncreasing e = true)
    (sl sh : SnapC) :
    cut e none none sl sh =
      (e, Except.ok (e, List.replicate (e.length - 1) true)) := by
  have hmask : (List.range (e.length - 1)).map
      (fun i => decide (0 ≤ i ∧ i < e.length - 1)) =
      List.replicate (e.length - 1) true := by
    refine List.eq_replicate_iff.mpr ⟨by simp, ?_⟩
    intro b hb
    obtain ⟨i, hi, hbi⟩ := List.mem_map.mp hb
    rw [List.mem_range] at hi
    rw [← hbi]
    simp [hi]
  have hnew : (e.drop 0).take (e.length - 1 + 1 - 0) = e := by
    rw [List.drop_zero]
    exact List.take_of_length_le (by omega)
  show (e, (setEdges (NpValue.arr ((e.drop 0).take (e.length - 1 + 1 - 0)))).map
      fun ne => (ne, (List.range (e.length - 1)).map fun i =>
        decide (0 ≤ i ∧ i < e.length - 1))) = _
  rw [hnew, hmask]
  show (e, (if pairsIncreasing e then Except.ok e
      else Except.error PyError.valueError).map fun ne =>
        (ne, List.replicate (e.length - 1) true)) = _
  rw [if_pos hinc]
  rfl

/-- Witness for C5 at the concrete axis `[0, 1, 2]`. -/
theorem C5_cut_none_identity_witness :
    cut [0, 1, 2] none none SnapC.nearest SnapC.nearest =
      ([0, 1, 2], Except.ok ([0, 1, 2], List.replicate 2 true)) :=
  C5_cut_none_identity [0, 1, 2] (by decide) SnapC.nearest SnapC.nearest

theorem mergebins_m0 (e : List ℚ) (n : ℕ) (snap : SnapM) (clip : Bool)
    (h : (e.length - 1) % n = 0) :
    mergebins e n snap clip = setEdges (NpValue.arr (npSliceStep e n)) := by
  unfold mergebins
  simp only [h, reduceIte]

/-- Claim C6: when the bin count `nbins = len(edges) - 1` is evenly
divisible by `n ≥ 1`, `mergebins(n, snap, clip)` returns, for every snap
keyword and both clip values, the axis whose edges are exactly every n-th
original edge (`edges[0], edges[n], ..., edges[nbins]`), with `nbins / n`
bins. -/
theorem C6_mergebins_divisible (e : List ℚ) (n : ℕ)
    (hinc : pairsIncreasing e = true) (hlen : 2 ≤ e.length) (hn : 1 ≤ n)
    (hdvd : (e.length - 1) % n = 0) (snap : SnapM) (clip : Bool) :
    mergebins e n snap clip =
      Except.ok ((List.range ((e.length - 1) / n + 1)).map
        fun k => e.getD (k * n) 0) ∧
    ((List.range ((e.length - 1) / n + 1)).map fun k => e.getD (k * n) 0).length
      - 1 = (e.length - 1) / n := by
  have hp := pairsIncreasing_pairwise hinc
  have hslice : npSliceStep e n =
      (List.range ((e.length - 1) / n + 1)).map fun k => e.getD (k * n) 0 := by
    rw [npSliceStep]
    congr 1
    have h1 : e.length + n - 1 = (e.length - 1) + n := by omega
    rw [h1, Nat.add_div_right _ (by omega)]
  have hgetn : ∀ k, k < (e.length - 1) / n + 1 → k * n < e.length := by
    intro k hk
    have h1 : k ≤ (e.length - 1) / n := by omega
    have h2 : k * n ≤ ((e.length - 1) / n) * n := Nat.mul_le_mul_right n h1
    have h3 : ((e.length - 1) / n) * n = e.length - 1 :=
      Nat.div_mul_cancel (Nat.dvd_of_mod_eq_zero hdvd)
    omega
  have hchain : List.Chain' (· < ·)
      ((List.range ((e.length - 1) / n + 1)).map fun k => e.getD (k * n) 0) := by
    refine chain'_of_getD _ ?_
    intro k hk
    rw [List.length_map, List.length_range] at hk
    rw [getD_map_range _ _ _ (by omega), getD_map_range _ _ _ (by omega)]
    rw [List.getD_eq_getElem e 0 (hgetn k (by omega)),
      List.getD_eq_getElem e 0 (hgetn (k + 1) (by omega))]
    have hmul : (k + 1) * n = k * n + n := by ring
    exact pairwise_getElem hp (by omega) (hgetn (k + 1) (by omega))
  constructor
  · rw [mergebins_m0 e n snap clip hdvd, hslice]
    show (if pairsIncreasing ((List.range ((e.length - 1) / n + 1)).map
        fun k => e.getD (k * n) 0) then _ else _) = _
    rw [if_pos ((pairsIncreasing_iff _).mpr hchain)]
  · rw [List.length_map, List.length_range]
    exact Nat.add_sub_cancel _ _

/-- Witness for C6 at the axis `[0, 1, 2, 3, 4]` merged in groups of 2. -/
theorem C6_mergebins_divisible_witness :
    mergebins [0, 1, 2, 3, 4] 2 SnapM.low true =
      Except.ok ((List.range ((([0, 1, 2, 3, 4] : List ℚ).length - 1) / 2 + 1)).map
        fun k => ([0, 1, 2, 3, 4] : List ℚ).getD (k * 2) 0) ∧
    ((List.range ((([0, 1, 2, 3, 4] : List ℚ).length - 1) / 2 + 1)).map
      fun k => ([0, 1, 2, 3, 4] : List ℚ).getD (k * 2) 0).length - 1 =
      (([0, 1, 2, 3, 4] : List ℚ).length - 1) / 2 :=
  C6_mergebins_divisible [0, 1, 2, 3, 4] 2 (by decide) (by decide) (by decide)
    (by decide) SnapM.low true

/-- Claim C7: `HistogramAxis(n, (lo, hi))` with `n ≥ 1` and `lo < hi`
constructs a uniform axis: `nbins = n`, `edges[0] = lo`, `edges[-1] = hi`,
and every bin width equal to `(hi - lo) / n` (exactly, in the rational
model; "within floating tolerance" in the floating-point original). -/
theorem C7_uniform_constructor (n : ℕ) (lo hi : ℚ) (hn : 1 ≤ n) (hlh : lo < hi) :
    ∃ e, initAxis (BinsArg.count n) (some (lo, hi)) = Except.ok e ∧
      e.length - 1 = n ∧
      e.getD 0 0 = lo ∧
      e.getD (e.length - 1) 0 = hi ∧
      (∀ i, i < n → e.getD (i + 1) 0 - e.getD i 0 = (hi - lo) / n) := by
  have hn0 : (n : ℚ) ≠ 0 := Nat.cast_ne_zero.mpr (by omega)
  set e := linspace lo hi n with hedef
  have hlenl : e.length = n + 1 := by
    rw [hedef, linspace, List.length_map, List.length_range]
  have hget : ∀ i, i ≤ n → e.getD i 0 = lo + (hi - lo) * i / n := by
    intro i hi2
    rw [hedef, linspace, getD_map_range _ _ _ (by omega)]
  have hwidth : ∀ i, i < n → e.getD (i + 1) 0 - e.getD i 0 = (hi - lo) / n := by
    intro i hi2
    rw [hget (i + 1) (by omega), hget i (by omega)]
    push_cast
    field_simp
    ring
  have hchain : List.Chain' (· < ·) e := by
    refine chain'_of_getD e ?_
    intro k hk
    rw [hlenl] at hk
    have hw := hwidth k (by omega)
    have hpos : 0 < (hi - lo) / (n : ℚ) := by
      apply div_pos (by linarith)
      exact_mod_cast Nat.pos_of_ne_zero (by omega)
    linarith
  have hfirst : e.getD 0 0 = lo := by
    rw [hget 0 (by omega)]
    push_cast
    ring
  have hlast : e.getD (e.length - 1) 0 = hi := by
    rw [hlenl]
    simp only [Nat.add_sub_cancel]
    rw [hget n (le_refl n)]
    field_simp
  refine ⟨e, ?_, by omega, hfirst, hlast, hwidth⟩
  show (if lo < hi then setEdges (NpValue.arr (linspace lo hi n))
    else Except.error PyError.valueError) = Except.ok e
  rw [if_pos hlh, ← hedef]
  show (if pairsIncreasing e then Except.ok e
    else Except.error PyError.valueError) = Except.ok e
  rw [if_pos ((pairsIncreasing_iff e).mpr hchain)]

/-- Witness for C7 at `n = 3`, `lo = 0`, `hi = 6`. -/
theorem C7_uniform_constructor_witness :
    ∃ e, initAxis (BinsArg.count 3) (some (0, 6)) = Except.ok e ∧
      e.length - 1 = 3 ∧
      e.getD 0 0 = 0 ∧
      e.getD (e.length - 1) 0 = 6 ∧
      (∀ i, i < 3 → e.getD (i + 1) 0 - e.getD i 0 = ((6 : ℚ) - 0) / (3 : ℕ)) :=
  C7_uniform_constructor 3 0 6 (by decide) (by decide)

/-- Counterexample to claim C8 as stated: assigning the one-point sequence
`[5]` to `HistogramAxis.edges` does not raise any error — the setter's
adjacent-pair strictness check is vacuously true and there is no length
check — even though the sequence has fewer than 2 points. -/
theorem C8_setter_counterexample :
    setEdges (NpValue.arr [5]) = Except.ok [5] ∧
    ([5] : List ℚ).length < 2 := by
  decide

/-- Claim C8 (amended): assigning a one-dimensional sequence to
`HistogramAxis.edges` raises `ValueError` exactly when some adjacent pair
fails to increase strictly; any strictly increasing sequence is accepted,
including sequences of fewer than 2 points, which pass the adjacent-pair
check vacuously (the setter does not check the length). -/
theorem C8_setter_validation (xs : List ℚ) :
    (¬ (∀ i, i + 1 < xs.length → xs.getD i 0 < xs.getD (i + 1) 0) →
      setEdges (NpValue.arr xs) = Except.error PyError.valueError) ∧
    ((∀ i, i + 1 < xs.length → xs.getD i 0 < xs.getD (i + 1) 0) →
      setEdges (NpValue.arr xs) = Except.ok xs) ∧
    (xs.length < 2 → setEdges (NpValue.arr xs) = Except.ok xs) := by
  have hiff : pairsIncreasing xs = true ↔
      (∀ i, i + 1 < xs.length → xs.getD i 0 < xs.getD (i + 1) 0) :=
    (pairsIncreasing_iff xs).trans (chain'_getD_iff xs)
  have hsucc : (∀ i, i + 1 < xs.length → xs.getD i 0 < xs.getD (i + 1) 0) →
      setEdges (NpValue.arr xs) = Except.ok xs := by
    intro h
    show (if pairsIncreasing xs then Except.ok xs
      else Except.error PyError.valueError) = Except.ok xs
    rw [if_pos (hiff.mpr h)]
  refine ⟨?_, hsucc, ?_⟩
  · intro h
    have hfalse : pairsIncreasing xs = false := by
      rcases Bool.eq_false_or_eq_true (pairsIncreasing xs) with ht | hf
      · exact absurd (hiff.mp ht) h
      · exact hf
    show (if pairsIncreasing xs then Except.ok xs
      else Except.error PyError.valueError) = Except.error PyError.valueError
    rw [hfalse]
    simp
  · intro h
    exact hsucc fun i hi => absurd hi (by omega)

/-- Witness for the amended C8: the non-increasing pair `[3, 1]` raises
`ValueError`. -/
theorem C8_setter_validation_witness :
    setEdges (NpValue.arr [3, 1]) = Except.error PyError.valueError :=
  (C8_setter_validation [3, 1]).1
    (fun h => absurd (h 0 (by decide)) (by decide))

/-- Counterexample to claim C9 as stated: `HistogramAxis(100)` with no
range limits raises `AssertionError` (the edge setter's one-dimensionality
assertion on the 0-d array `np.asarray(100)`), which is not a
`TypeError`. -/
theorem C9_counterexample :
    initAxis (BinsArg.count 100) none = Except.error PyError.assertionError ∧
    Except.error PyError.assertionError ≠
      (Except.error PyError.typeError : Except PyError (List ℚ)) := by
  constructor
  · rfl
  · decide

/-- Claim C9 (amended): constructing a `HistogramAxis` from an integer bin
count with no range limits raises an error, but it is an `AssertionError`
from the edges setter's dimensionality assertion, not a `TypeError`. -/
theorem C9_int_no_limits_asserts (n : ℕ) :
    initAxis (BinsArg.count n) none = Except.error PyError.assertionError := rfl

/-- Claim C10: `HistogramAxis.__eq__` is total and never raises: the only
error `np.allclose` can raise on two 1-d edge arrays is the `ValueError`
for non-broadcastable shapes, and the `except ValueError` clause converts
it to `False`; in particular, when the two edge arrays have different
lengths and neither has length 1, the comparison returns `False`. -/
theorem C10_eq_total (a b : List ℚ) :
    (∃ r : Bool, axisEq a b = Except.ok r) ∧
    (a.length ≠ b.length → a.length ≠ 1 → b.length ≠ 1 →
      axisEq a b = Except.ok false) := by
  have haxis : ∀ r, npAllclose a b = r → axisEq a b =
      (match r with
        | Except.ok v => Except.ok v
        | Except.error PyError.valueError => Except.ok false
        | Except.error err => Except.error err) := by
    intro r hr
    show (match npAllclose a b with
      | Except.ok v => Except.ok v
      | Except.error PyError.valueError => Except.ok false
      | Except.error err => Except.error err) = _
    rw [hr]
  constructor
  · cases h : npAllclose a b with
    | ok bb => exact ⟨bb, haxis _ h⟩
    | error err =>
      have herr : err = PyError.valueError := by
        unfold npAllclose at h
        split_ifs at h <;> simp_all
      subst herr
      exact ⟨false, haxis _ h⟩
  · intro h1 h2 h3
    have h : npAllclose a b = Except.error PyError.valueError := by
      unfold npAllclose
      rw [if_neg h1, if_neg h2, if_neg h3]
    exact haxis _ h

/-- Witness for C10: a length-2 axis compared with a length-4 axis gives
`False` without raising. -/
theorem C10_eq_total_witness :
    axisEq [0, 1] [0, 1, 2, 3] = Except.ok false :=
  (C10_eq_total [0, 1] [0, 1, 2, 3]).2 (by decide) (by decide) (by decide)
